import Mathlib

/-!
Verification of the morse-magic-web codec and playback scheduler.

The playback scheduler is embedded from `playMorseCode` in
`src/components/MorseConverter.tsx`: it walks the morse string character by
character with a running cursor `time` that starts at `audioContext.currentTime`
and a fixed `unit = 0.1`:
  - on a `'.'` it schedules gain-on at `time`, advances `time += unit`,
    schedules gain-off at `time`, and advances `time += unit`;
  - on a `'-'` it schedules gain-on at `time`, advances `time += unit * 3`,
    schedules gain-off at `time`, and advances `time += unit`;
  - on a `' '` it advances `time += unit * 3`;
  - every other character is ignored.
Times are modelled as rationals; a tone event is a pair of a timestamp and a
boolean (`true` = tone on).
-/

/-- One step of `playMorseCode`'s loop, generalized over the unit `u` and the
starting cursor `t`: returns the emitted tone events together with the final
cursor value. Mirrors the `forEach` over `outputText.split('')`. -/
def schedAux (u t : ℚ) : List Char → List (ℚ × Bool) × ℚ
  | [] => ([], t)
  | c :: cs =>
    if c = '.' then
      let r := schedAux u (t + u + u) cs
      ((t, true) :: (t + u, false) :: r.1, r.2)
    else if c = '-' then
      let r := schedAux u (t + u * 3 + u) cs
      ((t, true) :: (t + u * 3, false) :: r.1, r.2)
    else if c = ' ' then
      schedAux u (t + u * 3) cs
    else
      schedAux u t cs

/-- The schedule relative to the start instant: the tone events produced for a
morse string with unit `u`, cursor starting at 0. -/
def schedule (u : ℚ) (s : List Char) : List (ℚ × Bool) :=
  (schedAux u 0 s).1

/-- The final cursor value relative to the start instant; `playMorseCode`
passes this to `oscillator.stop` and to the cleanup timer. -/
def scheduleEnd (u : ℚ) (s : List Char) : ℚ :=
  (schedAux u 0 s).2

/-- The timestamp of the last emitted event, if any: the spec's notion of the
total playback duration ("the final emitted timestamp is the total playback
duration"). -/
def lastTime (u : ℚ) (s : List Char) : Option ℚ :=
  ((schedule u s).getLast?).map Prod.fst

/-- The embedding of `playMorseCode` itself: cursor starts at the audio clock
reading `t0` (`audioContext.currentTime`) and the unit is the constant `0.1`. -/
def playMorseCode (t0 : ℚ) (morse : List Char) : List (ℚ × Bool) × ℚ :=
  schedAux (1/10) t0 morse

/-!
Codec. The functions `textToMorse` and `morseToText` live in
`src/utils/morseUtils.ts`, which is not among the given source files (only
their caller `MorseConverter.tsx` is). The codec below is therefore modelled
from the spec: a fixed injective Alphabet Table keyed by upper-case
characters (letters A-Z, digits 0-9, and the punctuation set period, comma,
question mark); encode drops unsupported characters silently, separates the
codes of a word by a single space and words by the three-space word-gap
token; decode splits on the word-gap token, then on single spaces, reverse
maps each token through the table and skips unknown tokens.
-/

/-- Modelled from the spec: the Alphabet Table of section 4.3, a fixed
character-to-Code mapping for letters, digits and a small punctuation set,
keyed case-insensitively by the upper-case character. -/
def morseTable : List (Char × List Char) :=
  [('A', ".-".toList), ('B', "-...".toList), ('C', "-.-.".toList),
   ('D', "-..".toList), ('E', ".".toList), ('F', "..-.".toList),
   ('G', "--.".toList), ('H', "....".toList), ('I', "..".toList),
   ('J', ".---".toList), ('K', "-.-".toList), ('L', ".-..".toList),
   ('M', "--".toList), ('N', "-.".toList), ('O', "---".toList),
   ('P', ".--.".toList), ('Q', "--.-".toList), ('R', ".-.".toList),
   ('S', "...".toList), ('T', "-".toList), ('U', "..-".toList),
   ('V', "...-".toList), ('W', ".--".toList), ('X', "-..-".toList),
   ('Y', "-.--".toList), ('Z', "--..".toList),
   ('0', "-----".toList), ('1', ".----".toList), ('2', "..---".toList),
   ('3', "...--".toList), ('4', "....-".toList), ('5', ".....".toList),
   ('6', "-....".toList), ('7', "--...".toList), ('8', "---..".toList),
   ('9', "----.".toList),
   ('.', ".-.-.-".toList), (',', "--..--".toList), ('?', "..--..".toList)]

/-- Forward lookup: the Code of a character, case-insensitively. -/
def lookupChar (c : Char) : Option (List Char) :=
  (morseTable.find? (fun p => p.1 == c.toUpper)).map Prod.snd

/-- Reverse lookup: the character of a Code, `none` for an unknown Code. -/
def lookupCode (m : List Char) : Option Char :=
  (morseTable.find? (fun p => p.2 == m)).map Prod.fst

/-- Prepend a character to the first chunk of a chunk list. -/
def consHead (c : Char) : List (List Char) → List (List Char)
  | [] => [[c]]
  | w :: ws => (c :: w) :: ws

/-- Split a character list on single spaces (the character-gap token). -/
def splitOnSpace : List Char → List (List Char)
  | [] => [[]]
  | c :: rest =>
    if c = ' ' then [] :: splitOnSpace rest else consHead c (splitOnSpace rest)

/-- Split a character list on the three-space word-gap token, greedily from
the left. -/
def splitWords : List Char → List (List Char)
  | [] => [[]]
  | c :: rest =>
    if c = ' ' ∧ rest.take 2 = [' ', ' '] then [] :: splitWords (rest.drop 2)
    else consHead c (splitWords rest)
termination_by l => l.length
decreasing_by
  · simp; omega
  · simp

/-- Join chunks with a separator. -/
def interc (sep : List Char) : List (List Char) → List Char
  | [] => []
  | [w] => w
  | w :: x :: ws => w ++ sep ++ interc sep (x :: ws)

/-- Modelled from the spec: encode one word, mapping each character through
the Alphabet Table, dropping unsupported characters silently, and separating
the resulting Codes by the single-space character-gap token. -/
def encodeWord (w : List Char) : List Char :=
  interc [' '] (w.filterMap lookupChar)

/-- Modelled from the spec: `encode` on character lists. Words (maximal runs
separated by one or more spaces) are encoded by `encodeWord` and joined by
the three-space word-gap token. -/
def encodeL (text : List Char) : List Char :=
  interc [' ', ' ', ' ']
    (((splitOnSpace text).filter (fun w => !w.isEmpty)).map encodeWord)

/-- Modelled from the spec: `decode` on character lists. Splits on the
word-gap token to recover words, then on the character-gap token to recover
per-character Codes, reverse-maps each Code and skips unknown Codes
(skip-and-continue); decoded words are joined by single spaces. -/
def decodeL (morse : List Char) : List Char :=
  interc [' ']
    ((splitWords morse).map (fun w => (splitOnSpace w).filterMap lookupCode))

/-- Modelled from the spec: `encode(text) → morse` (`textToMorse`). -/
def textToMorse (s : String) : String :=
  String.mk (encodeL s.data)

/-- Modelled from the spec: `decode(morse) → text` (`morseToText`). -/
def morseToText (s : String) : String :=
  String.mk (decodeL s.data)

/-- Scanner for double spaces: `true` iff the list never has two consecutive
spaces. -/
def noDouble : List Char → Bool
  | [] => true
  | c :: rest => (!(c == ' ' && rest.head? == some ' ')) && noDouble rest

/-- The Code of a supported character, as a total function. -/
def codeOf (c : Char) : List Char :=
  (lookupChar c).getD []

/-- Unfolding `schedAux` on a dot. -/
theorem schedAux_dot (u t : ℚ) (cs : List Char) :
    schedAux u t ('.' :: cs) =
      ((t, true) :: (t + u, false) :: (schedAux u (t + u + u) cs).1,
        (schedAux u (t + u + u) cs).2) := by
  simp [schedAux]

/-- Unfolding `schedAux` on a dash. -/
theorem schedAux_dash (u t : ℚ) (cs : List Char) :
    schedAux u t ('-' :: cs) =
      ((t, true) :: (t + u * 3, false) :: (schedAux u (t + u * 3 + u) cs).1,
        (schedAux u (t + u * 3 + u) cs).2) := by
  simp [schedAux]

/-- Unfolding `schedAux` on a space. -/
theorem schedAux_space (u t : ℚ) (cs : List Char) :
    schedAux u t (' ' :: cs) = schedAux u (t + u * 3) cs := by
  simp [schedAux]

/-- Unfolding `schedAux` on any other character: it is skipped. -/
theorem schedAux_other (u t : ℚ) (c : Char) (cs : List Char)
    (h1 : c ≠ '.') (h2 : c ≠ '-') (h3 : c ≠ ' ') :
    schedAux u t (c :: cs) = schedAux u t cs := by
  simp [schedAux, h1, h2, h3]

/-- Shifting the starting cursor shifts every emitted timestamp and the final
cursor by the same amount; the event pattern is unchanged. -/
theorem schedAux_shift (u d : ℚ) : ∀ (s : List Char) (t : ℚ),
    schedAux u (t + d) s =
      ((schedAux u t s).1.map (fun p => (p.1 + d, p.2)), (schedAux u t s).2 + d)
  | [], t => by simp [schedAux]
  | c :: cs, t => by
    by_cases h1 : c = '.'
    · have e : t + d + u + u = t + u + u + d := by ring
      have ih := schedAux_shift u d cs (t + u + u)
      simp [schedAux, h1, e, ih]
      ring
    · by_cases h2 : c = '-'
      · have e : t + d + u * 3 + u = t + u * 3 + u + d := by ring
        have ih := schedAux_shift u d cs (t + u * 3 + u)
        simp [schedAux, h1, h2, e, ih]
        ring
      · by_cases h3 : c = ' '
        · have e : t + d + u * 3 = t + u * 3 + d := by ring
          have ih := schedAux_shift u d cs (t + u * 3)
          simp [schedAux, h1, h2, h3, e, ih]
        · have ih := schedAux_shift u d cs t
          simp [schedAux, h1, h2, h3, ih]

/-- Characters other than dot, dash and space are ignored by the scheduler:
the schedule of any input equals the schedule of the input restricted to
those three characters. -/
theorem schedAux_filter (u : ℚ) : ∀ (s : List Char) (t : ℚ),
    schedAux u t s =
      schedAux u t (s.filter (fun d => d == '.' || d == '-' || d == ' '))
  | [], _ => rfl
  | c :: cs, t => by
    by_cases h1 : c = '.'
    · subst h1
      simp [List.filter_cons, schedAux]
      exact ⟨schedAux_filter u cs (t + u + u) ▸ rfl,
             schedAux_filter u cs (t + u + u) ▸ rfl⟩
    · by_cases h2 : c = '-'
      · subst h2
        simp [List.filter_cons, schedAux, h1]
        exact ⟨schedAux_filter u cs (t + u * 3 + u) ▸ rfl,
               schedAux_filter u cs (t + u * 3 + u) ▸ rfl⟩
      · by_cases h3 : c = ' '
        · subst h3
          simp [List.filter_cons, schedAux, h1, h2]
          exact schedAux_filter u cs (t + u * 3) ▸ rfl
        · simp [List.filter_cons, schedAux, h1, h2, h3]
          exact schedAux_filter u cs t ▸ rfl

/-- C3: for every unit `u > 0`, scheduling a single dot yields exactly the
events `(0, on)`, `(u, off)` with final emitted timestamp `u`, and a single
dash yields exactly `(0, on)`, `(3u, off)` with final emitted timestamp `3u`. -/
theorem schedule_dot_dash (u : ℚ) (hu : 0 < u) :
    schedule u ['.'] = [(0, true), (u, false)] ∧
      lastTime u ['.'] = some u ∧
      schedule u ['-'] = [(0, true), (u * 3, false)] ∧
      lastTime u ['-'] = some (u * 3) := by
  refine ⟨?_, ?_, ?_, ?_⟩ <;>
    simp [schedule, lastTime, schedAux]

/-- Witness for C3 at `u = 1`. -/
theorem schedule_dot_dash_witness :
    schedule 1 ['.'] = [(0, true), (1, false)] ∧
      lastTime 1 ['.'] = some 1 ∧
      schedule 1 ['-'] = [(0, true), (1 * 3, false)] ∧
      lastTime 1 ['-'] = some (1 * 3) :=
  schedule_dot_dash 1 (by norm_num)

/-- C6: for every unit `u > 0`, the empty morse string schedules no events and
both notions of total duration (final cursor and last emitted timestamp) are
zero/absent. -/
theorem schedule_empty (u : ℚ) (hu : 0 < u) :
    schedule u [] = [] ∧ scheduleEnd u [] = 0 ∧ lastTime u [] = none := by
  refine ⟨rfl, rfl, rfl⟩

/-- Witness for C6 at `u = 1`. -/
theorem schedule_empty_witness :
    schedule 1 [] = [] ∧ scheduleEnd 1 [] = 0 ∧ lastTime 1 [] = none :=
  schedule_empty 1 (by norm_num)

/-- C5 counterexample: the cursor of `playMorseCode` starts at the audio clock
reading, not at 0, so two invocations with the same morse string and the same
unit but different clock readings produce different event sequences. -/
theorem playMorseCode_clock_dependent :
    (playMorseCode 1 ['.']).1 ≠ (playMorseCode 0 ['.']).1 := by
  decide

/-- C5 amended: the cursor starts at the clock reading `t0`
(`audioContext.currentTime`); the sequence produced at clock reading `t0` is
exactly the `t0`-shift of the clock-independent schedule, so the event pattern
and all relative offsets are deterministic in the morse string alone. -/
theorem playMorseCode_eq_shifted_schedule (t0 : ℚ) (s : List Char) :
    (playMorseCode t0 s).1 = (schedule (1/10) s).map (fun p => (p.1 + t0, p.2)) ∧
      (playMorseCode t0 s).2 = scheduleEnd (1/10) s + t0 := by
  have h := schedAux_shift (1/10) t0 s 0
  rw [zero_add] at h
  constructor
  · rw [playMorseCode, h]; rfl
  · rw [playMorseCode, h]; rfl

/-- C9: a character that is not dot, dash or space emits no tone event and
does not advance the cursor, and in general the schedule of any input equals
the schedule of the input with all such characters removed. -/
theorem schedAux_ignores_other (u t : ℚ) (c : Char) (s : List Char)
    (h1 : c ≠ '.') (h2 : c ≠ '-') (h3 : c ≠ ' ') :
    schedAux u t (c :: s) = schedAux u t s ∧
      schedAux u t s =
        schedAux u t (s.filter (fun d => d == '.' || d == '-' || d == ' ')) := by
  constructor
  · simp [schedAux, h1, h2, h3]
  · exact schedAux_filter u s t

/-- Witness for C9 with the character `'/'`, `u = 1`, `t = 0`, tail `['.']`. -/
theorem schedAux_ignores_other_witness :
    schedAux 1 0 ['/', '.'] = schedAux 1 0 ['.'] ∧
      schedAux 1 0 ['.'] =
        schedAux 1 0 (['.'].filter (fun d => d == '.' || d == '-' || d == ' ')) :=
  schedAux_ignores_other 1 0 '/' ['.'] (by decide) (by decide) (by decide)

/-- C10: the on/off pattern of any schedule is an exact alternation of
`[true, false]` pairs, one pair per dot or dash of the input: the first event
of a non-empty schedule is tone-on, events alternate strictly, and the last is
tone-off, so the tone is never left on. -/
theorem schedule_on_off_pattern (u : ℚ) (s : List Char) :
    (schedule u s).map Prod.snd =
      (List.replicate ((s.filter (fun c => c == '.' || c == '-')).length)
        [true, false]).flatten := by
  suffices h : ∀ (cs : List Char) (t : ℚ),
      ((schedAux u t cs).1.map Prod.snd) =
        (List.replicate ((cs.filter (fun c => c == '.' || c == '-')).length)
          [true, false]).flatten from h s 0
  intro cs
  induction cs with
  | nil => intro t; rfl
  | cons c cs ih =>
    intro t
    by_cases h1 : c = '.'
    · subst h1
      simp [schedAux, List.filter_cons, List.replicate_succ, ih]
    · by_cases h2 : c = '-'
      · subst h2
        simp [schedAux, List.filter_cons, List.replicate_succ, h1, ih]
      · by_cases h3 : c = ' '
        · subst h3
          simp [schedAux, List.filter_cons, h1, h2, ih]
        · simp [schedAux, List.filter_cons, h1, h2, h3, ih]

/-- Invariant behind C4: for a nonnegative unit, the events of `schedAux` have
non-decreasing timestamps, all of them at least the starting cursor, and the
final cursor is at least the starting cursor. -/
theorem schedAux_mono (u : ℚ) (hu : 0 ≤ u) : ∀ (s : List Char) (t : ℚ),
    List.Chain' (fun a b => a.1 ≤ b.1) (schedAux u t s).1 ∧
      (∀ p ∈ (schedAux u t s).1, t ≤ p.1) ∧ t ≤ (schedAux u t s).2
  | [], t => by simp [schedAux]
  | c :: cs, t => by
    by_cases h1 : c = '.'
    · subst h1
      obtain ⟨ihc, ihm, ihe⟩ := schedAux_mono u hu cs (t + u + u)
      rw [schedAux_dot]
      refine ⟨?_, ?_, show t ≤ (schedAux u (t + u + u) cs).2 by linarith⟩
      · refine List.chain'_cons.2 ⟨show t ≤ t + u by linarith, ?_⟩
        refine (List.chain'_cons'.2 ⟨?_, ihc⟩)
        intro b hb
        have hm := ihm b (List.mem_of_mem_head? hb)
        show t + u ≤ b.1
        linarith
      · intro p hp
        rcases List.mem_cons.1 hp with rfl | hp
        · exact le_rfl
        rcases List.mem_cons.1 hp with rfl | hp
        · show t ≤ t + u
          linarith
        · have hm := ihm p hp
          linarith
    · by_cases h2 : c = '-'
      · subst h2
        obtain ⟨ihc, ihm, ihe⟩ := schedAux_mono u hu cs (t + u * 3 + u)
        rw [schedAux_dash]
        refine ⟨?_, ?_, show t ≤ (schedAux u (t + u * 3 + u) cs).2 by linarith⟩
        · refine List.chain'_cons.2 ⟨show t ≤ t + u * 3 by linarith, ?_⟩
          refine (List.chain'_cons'.2 ⟨?_, ihc⟩)
          intro b hb
          have hm := ihm b (List.mem_of_mem_head? hb)
          show t + u * 3 ≤ b.1
          linarith
        · intro p hp
          rcases List.mem_cons.1 hp with rfl | hp
          · exact le_rfl
          rcases List.mem_cons.1 hp with rfl | hp
          · show t ≤ t + u * 3
            linarith
          · have hm := ihm p hp
            linarith
      · by_cases h3 : c = ' '
        · subst h3
          obtain ⟨ihc, ihm, ihe⟩ := schedAux_mono u hu cs (t + u * 3)
          rw [schedAux_space]
          refine ⟨ihc, ?_, by linarith⟩
          intro p hp
          have hm := ihm p hp
          linarith
        · obtain ⟨ihc, ihm, ihe⟩ := schedAux_mono u hu cs t
          rw [schedAux_other u t c cs h1 h2 h3]
          exact ⟨ihc, ihm, ihe⟩

/-- C4: for every morse input and every unit `u > 0`, the timestamps of the
produced tone event sequence are non-decreasing from first to last. -/
theorem schedule_times_mono (u : ℚ) (s : List Char) (hu : 0 < u) :
    List.Chain' (fun a b => a.1 ≤ b.1) (schedule u s) :=
  (schedAux_mono u (le_of_lt hu) s 0).1

/-- Witness for C4 at `u = 1` on the input dot-dash. -/
theorem schedule_times_mono_witness :
    List.Chain' (fun a b => a.1 ≤ b.1) (schedule 1 ['.', '-']) :=
  schedule_times_mono 1 ['.', '-'] (by norm_num)

/-- Splitting the input splits the schedule: the events of `xs ++ ys` are the
events of `xs` followed by the events of `ys` started at the cursor left by
`xs`. -/
theorem schedAux_append (u : ℚ) : ∀ (xs ys : List Char) (t : ℚ),
    schedAux u t (xs ++ ys) =
      ((schedAux u t xs).1 ++ (schedAux u (schedAux u t xs).2 ys).1,
        (schedAux u (schedAux u t xs).2 ys).2)
  | [], ys, t => by simp [schedAux]
  | c :: cs, ys, t => by
    by_cases h1 : c = '.'
    · subst h1
      rw [List.cons_append, schedAux_dot, schedAux_dot,
        schedAux_append u cs ys (t + u + u)]
      rfl
    · by_cases h2 : c = '-'
      · subst h2
        rw [List.cons_append, schedAux_dash, schedAux_dash,
          schedAux_append u cs ys (t + u * 3 + u)]
        rfl
      · by_cases h3 : c = ' '
        · subst h3
          rw [List.cons_append, schedAux_space, schedAux_space,
            schedAux_append u cs ys (t + u * 3)]
        · rw [List.cons_append, schedAux_other u t c _ h1 h2 h3,
            schedAux_other u t c cs h1 h2 h3,
            schedAux_append u cs ys t]

/-- Structure of the events of a non-empty run of pure symbols (dots and
dashes): the first event is tone-on at the starting cursor, and the last event
is tone-off exactly one unit before the final cursor (the trailing
inter-symbol gap the code always appends). -/
theorem schedAux_symbols (u : ℚ) : ∀ (s : List Char) (t : ℚ), s ≠ [] →
    (∀ c ∈ s, c = '.' ∨ c = '-') →
    (schedAux u t s).1.head? = some (t, true) ∧
      (schedAux u t s).1.getLast? = some ((schedAux u t s).2 - u, false)
  | [], _, hne, _ => absurd rfl hne
  | c :: cs, t, _, hsym => by
    have hc : c = '.' ∨ c = '-' := hsym c (List.mem_cons_self c cs)
    by_cases hcs : cs = []
    · subst hcs
      rcases hc with rfl | rfl
      · rw [schedAux_dot]
        constructor
        · rfl
        · show some (t + u, false) = some (t + u + u - u, false)
          norm_num
      · rw [schedAux_dash]
        constructor
        · rfl
        · show some (t + u * 3, false) = some (t + u * 3 + u - u, false)
          norm_num
    · have hsym2 : ∀ d ∈ cs, d = '.' ∨ d = '-' := fun d hd =>
        hsym d (List.mem_cons_of_mem c hd)
      rcases hc with rfl | rfl
      · obtain ⟨ih1, ih2⟩ := schedAux_symbols u cs (t + u + u) hcs hsym2
        rw [schedAux_dot]
        obtain ⟨e, es, he⟩ : ∃ e es, (schedAux u (t + u + u) cs).1 = e :: es := by
          rcases h : (schedAux u (t + u + u) cs).1 with _ | ⟨e, es⟩
          · rw [h] at ih1; exact absurd ih1 (by simp)
          · exact ⟨e, es, rfl⟩
        refine ⟨rfl, ?_⟩
        rw [he] at ih2 ⊢
        rw [List.getLast?_cons_cons, List.getLast?_cons_cons]
        exact ih2
      · obtain ⟨ih1, ih2⟩ := schedAux_symbols u cs (t + u * 3 + u) hcs hsym2
        rw [schedAux_dash]
        obtain ⟨e, es, he⟩ : ∃ e es, (schedAux u (t + u * 3 + u) cs).1 = e :: es := by
          rcases h : (schedAux u (t + u * 3 + u) cs).1 with _ | ⟨e, es⟩
          · rw [h] at ih1; exact absurd ih1 (by simp)
          · exact ⟨e, es, rfl⟩
        refine ⟨rfl, ?_⟩
        rw [he] at ih2 ⊢
        rw [List.getLast?_cons_cons, List.getLast?_cons_cons]
        exact ih2

/-- C1 counterexample: between the two adjacent one-symbol characters of
`". ."` (single-space character boundary, `u = 1`) the tone goes off at 1 and
back on at 5, so the silence is 4 units, not the claimed
`max(pending gap, 3·unit) = 3` units. -/
theorem schedule_char_gap_is_four_not_three :
    schedule 1 ['.', ' ', '.'] = [(0, true), (1, false), (5, true), (6, false)] ∧
      ¬ ((5 : ℚ) - 1 = 3 * 1) := by
  constructor
  · norm_num [schedule, schedAux]
    rfl
  · norm_num

/-- C1 amended: the scheduler sums the pending inter-symbol gap with `3·unit`
per space character instead of taking the larger of the two. For non-empty
pure-symbol characters `c1`, `c2`: across a single-space character boundary
the silence between the last tone-off of `c1` and the first tone-on of `c2`
is exactly `4·unit`, and across a three-space word boundary it is exactly
`10·unit`. -/
theorem schedule_boundary_gap_sums (u : ℚ) (c1 c2 : List Char)
    (h1 : c1 ≠ []) (h2 : c2 ≠ [])
    (hs1 : ∀ c ∈ c1, c = '.' ∨ c = '-') (hs2 : ∀ c ∈ c2, c = '.' ∨ c = '-') :
    ∃ t1 : ℚ,
      schedule u (c1 ++ ' ' :: c2) =
        (schedAux u 0 c1).1 ++ (schedAux u (t1 + u * 3) c2).1 ∧
      (schedAux u 0 c1).1.getLast? = some (t1 - u, false) ∧
      (schedAux u (t1 + u * 3) c2).1.head? = some (t1 + u * 3, true) ∧
      t1 + u * 3 - (t1 - u) = u * 4 ∧
      schedule u (c1 ++ ' ' :: ' ' :: ' ' :: c2) =
        (schedAux u 0 c1).1 ++ (schedAux u (t1 + u * 9) c2).1 ∧
      (schedAux u (t1 + u * 9) c2).1.head? = some (t1 + u * 9, true) ∧
      t1 + u * 9 - (t1 - u) = u * 10 := by
  obtain ⟨hh1, hl1⟩ := schedAux_symbols u c1 0 h1 hs1
  have e9 : ((schedAux u 0 c1).2 + u * 3) + u * 3 + u * 3 =
      (schedAux u 0 c1).2 + u * 9 := by ring
  refine ⟨(schedAux u 0 c1).2, ?_, hl1, ?_, by ring, ?_, ?_, by ring⟩
  · rw [schedule, schedAux_append u c1 (' ' :: c2) 0, schedAux_space]
  · exact (schedAux_symbols u c2 _ h2 hs2).1
  · rw [schedule, schedAux_append u c1 (' ' :: ' ' :: ' ' :: c2) 0,
      schedAux_space, schedAux_space, schedAux_space, e9]
  · exact (schedAux_symbols u c2 _ h2 hs2).1

/-- Witness for the amended C1 at `u = 1`, `c1 = c2 = "."`. -/
theorem schedule_boundary_gap_sums_witness :
    ∃ t1 : ℚ,
      schedule 1 (['.'] ++ ' ' :: ['.']) =
        (schedAux 1 0 ['.']).1 ++ (schedAux 1 (t1 + 1 * 3) ['.']).1 ∧
      (schedAux 1 0 ['.']).1.getLast? = some (t1 - 1, false) ∧
      (schedAux 1 (t1 + 1 * 3) ['.']).1.head? = some (t1 + 1 * 3, true) ∧
      t1 + 1 * 3 - (t1 - 1) = 1 * 4 ∧
      schedule 1 (['.'] ++ ' ' :: ' ' :: ' ' :: ['.']) =
        (schedAux 1 0 ['.']).1 ++ (schedAux 1 (t1 + 1 * 9) ['.']).1 ∧
      (schedAux 1 (t1 + 1 * 9) ['.']).1.head? = some (t1 + 1 * 9, true) ∧
      t1 + 1 * 9 - (t1 - 1) = 1 * 10 :=
  schedule_boundary_gap_sums 1 ['.'] ['.'] (by decide) (by decide)
    (by decide) (by decide)

/-- The Alphabet Table is injective on Codes: no two entries share a Code
(section 3 invariant). -/
theorem morseTable_inj : List.Pairwise (fun a b => a.2 ≠ b.2) morseTable := by
  decide

/-- Every Code in the Alphabet Table is non-empty and contains no space. -/
theorem morseTable_codes : ∀ p ∈ morseTable, p.2 ≠ [] ∧ ' ' ∉ p.2 := by
  decide

/-- The space character has no Code of its own. -/
theorem lookupChar_space : lookupChar ' ' = none := by decide

/-- A successful forward lookup comes from a table entry keyed by the
upper-cased character. -/
theorem lookupChar_spec (c : Char) (m : List Char) (h : lookupChar c = some m) :
    ∃ p ∈ morseTable, p.1 = c.toUpper ∧ p.2 = m := by
  unfold lookupChar at h
  rcases hf : morseTable.find? (fun p => p.1 == c.toUpper) with _ | p
  · rw [hf] at h
    exact Option.noConfusion h
  · rw [hf] at h
    have h2 : p.2 = m := by simpa using h
    refine ⟨p, List.mem_of_find?_eq_some hf, ?_, h2⟩
    have hp := List.find?_some hf
    simpa using hp

/-- A supported character is not the space character. -/
theorem supported_ne_space (c : Char) (h : (lookupChar c).isSome) : c ≠ ' ' := by
  intro he
  subst he
  rw [lookupChar_space] at h
  simp at h

/-- The Code of a supported character is non-empty and space-free. -/
theorem lookupChar_code_props (c : Char) (m : List Char)
    (h : lookupChar c = some m) : m ≠ [] ∧ ' ' ∉ m := by
  obtain ⟨p, hmem, _, hsnd⟩ := lookupChar_spec c m h
  exact hsnd ▸ morseTable_codes p hmem

/-- Reverse lookup after forward lookup recovers the case-normalized
character; this is where the table's injectivity is used. -/
theorem lookup_roundtrip (c : Char) (m : List Char) (h : lookupChar c = some m) :
    lookupCode m = some c.toUpper := by
  obtain ⟨p, hmem, hfst, hsnd⟩ := lookupChar_spec c m h
  have hex : (morseTable.find? (fun q => q.2 == m)).isSome := by
    rw [List.find?_isSome]
    exact ⟨p, hmem, by simp [hsnd]⟩
  rcases hq : morseTable.find? (fun q => q.2 == m) with _ | q
  · rw [hq] at hex
    simp at hex
  · have hqmem := List.mem_of_find?_eq_some hq
    have hq2 : q.2 = m := by simpa using List.find?_some hq
    have hsymm : Symmetric (fun a b : Char × List Char => a.2 ≠ b.2) :=
      fun _ _ hab => hab.symm
    have hqp : q = p := by
      by_contra hne
      exact morseTable_inj.forall hsymm hqmem hmem hne (hq2.trans hsnd.symm)
    unfold lookupCode
    rw [hq, hqp]
    simp [hfst]

/-- A list with no space does not end in a space. -/
theorem getLast?_no_space : ∀ (w : List Char), ' ' ∉ w → w.getLast? ≠ some ' '
  | [], _ => by simp
  | [c], hw => by
    simp only [List.getLast?_singleton]
    intro h
    exact hw (by simp [(Option.some_inj.1 h)])
  | c :: d :: w, hw => by
    rw [List.getLast?_cons_cons]
    exact getLast?_no_space (d :: w) (fun hm => hw (List.mem_cons_of_mem c hm))

/-- A non-empty list with no space does not begin with a space. -/
theorem head?_no_space (w : List Char) (hne : w ≠ []) (hw : ' ' ∉ w) :
    w.head? ≠ some ' ' := by
  cases w with
  | nil => exact absurd rfl hne
  | cons c w =>
    simp only [List.head?_cons]
    intro h
    exact hw (by simp [(Option.some_inj.1 h)])

/-- A list with no space has no double space. -/
theorem noDouble_of_no_space : ∀ (w : List Char), ' ' ∉ w → noDouble w = true
  | [], _ => rfl
  | c :: w, hw => by
    have hc : c ≠ ' ' := fun he => hw (he ▸ List.mem_cons_self c w)
    simp only [noDouble, Bool.and_eq_true, Bool.not_eq_eq_eq_not, Bool.not_true]
    constructor
    · simp [hc]
    · exact noDouble_of_no_space w (fun hm => hw (List.mem_cons_of_mem c hm))

/-- Gluing a space-free chunk, a space, and a double-space-free tail that does
not begin with a space keeps the result double-space-free. -/
theorem noDouble_append : ∀ (w t : List Char), ' ' ∉ w → noDouble t = true →
    t.head? ≠ some ' ' → noDouble (w ++ ' ' :: t) = true
  | [], t, _, ht, hh => by
    simp only [List.nil_append, noDouble, Bool.and_eq_true]
    refine ⟨by simpa using hh, ht⟩
  | c :: w, t, hw, ht, hh => by
    have hc : c ≠ ' ' := fun he => hw (he ▸ List.mem_cons_self c w)
    simp only [List.cons_append, noDouble, Bool.and_eq_true]
    refine ⟨by simp [hc], ?_⟩
    exact noDouble_append w t (fun hm => hw (List.mem_cons_of_mem c hm)) ht hh

/-- A space-free chunk is a single chunk for the character-gap splitter. -/
theorem splitOnSpace_no_space : ∀ (w : List Char), ' ' ∉ w →
    splitOnSpace w = [w]
  | [], _ => rfl
  | c :: w, hw => by
    have hc : c ≠ ' ' := fun he => hw (he ▸ List.mem_cons_self c w)
    have hw2 : ' ' ∉ w := fun hm => hw (List.mem_cons_of_mem c hm)
    simp [splitOnSpace, hc, splitOnSpace_no_space w hw2, consHead]

/-- Peeling one space-free chunk and one space off the character-gap
splitter. -/
theorem splitOnSpace_append : ∀ (w s : List Char), ' ' ∉ w →
    splitOnSpace (w ++ ' ' :: s) = w :: splitOnSpace s
  | [], s, _ => by simp [splitOnSpace]
  | c :: w, s, hw => by
    have hc : c ≠ ' ' := fun he => hw (he ▸ List.mem_cons_self c w)
    have hw2 : ' ' ∉ w := fun hm => hw (List.mem_cons_of_mem c hm)
    simp [splitOnSpace, hc, splitOnSpace_append w s hw2, consHead]

/-- Splitting on single spaces is a left inverse of joining space-free chunks
with single spaces. -/
theorem splitOnSpace_interc : ∀ (ts : List (List Char)), ts ≠ [] →
    (∀ t ∈ ts, ' ' ∉ t) → splitOnSpace (interc [' '] ts) = ts
  | [], hne, _ => absurd rfl hne
  | [w], _, hsp => by
    simpa [interc] using splitOnSpace_no_space w (hsp w (by simp))
  | w :: x :: ts2, _, hsp => by
    have he : interc [' '] (w :: x :: ts2) = w ++ ' ' :: interc [' '] (x :: ts2) := by
      simp [interc]
    rw [he, splitOnSpace_append w _ (hsp w (by simp)),
      splitOnSpace_interc (x :: ts2) (by simp)
        (fun t ht => hsp t (List.mem_cons_of_mem w ht))]

/-- Joining a list of chunks headed by a non-empty chunk is non-empty. -/
theorem interc_ne_nil (x : List Char) (ws : List (List Char)) (hx : x ≠ []) :
    interc [' '] (x :: ws) ≠ [] := by
  cases ws with
  | nil => simpa [interc] using hx
  | cons y ws2 =>
    simp only [interc]
    intro h
    rcases List.append_eq_nil.1 h with ⟨h1, _⟩
    rcases List.append_eq_nil.1 h1 with ⟨_, h3⟩
    exact List.noConfusion h3

/-- The head of a joined chunk list is the head of its first chunk, when that
chunk is non-empty. -/
theorem interc_head (x : List Char) (ws : List (List Char)) (hx : x ≠ []) :
    (interc [' '] (x :: ws)).head? = x.head? := by
  cases ws with
  | nil => simp [interc]
  | cons y ws2 =>
    cases x with
    | nil => exact absurd rfl hx
    | cons c x2 => simp [interc]

/-- Joining non-empty space-free chunks with single spaces yields a string
with no double space that does not end in a space. -/
theorem noDouble_interc : ∀ (cs : List (List Char)),
    (∀ x ∈ cs, x ≠ [] ∧ ' ' ∉ x) →
    noDouble (interc [' '] cs) = true ∧ (interc [' '] cs).getLast? ≠ some ' '
  | [], _ => ⟨rfl, by simp [interc]⟩
  | [w], h => by
    obtain ⟨hne, hsp⟩ := h w (by simp)
    exact ⟨by simpa [interc] using noDouble_of_no_space w hsp,
      by simpa [interc] using getLast?_no_space w hsp⟩
  | w :: x :: ws2, h => by
    obtain ⟨hwne, hwsp⟩ := h w (by simp)
    obtain ⟨hxne, hxsp⟩ := h x (by simp)
    obtain ⟨ih1, ih2⟩ := noDouble_interc (x :: ws2)
      (fun y hy => h y (List.mem_cons_of_mem w hy))
    have he : interc [' '] (w :: x :: ws2) = w ++ ' ' :: interc [' '] (x :: ws2) := by
      simp [interc]
    have hhead : (interc [' '] (x :: ws2)).head? ≠ some ' ' := by
      rw [interc_head x ws2 hxne]
      exact head?_no_space x hxne hxsp
    constructor
    · rw [he]
      exact noDouble_append w _ hwsp ih1 hhead
    · rw [he, List.getLast?_append_cons]
      rcases ht : interc [' '] (x :: ws2) with _ | ⟨e, t2⟩
      · exact absurd ht (interc_ne_nil x ws2 hxne)
      · rw [List.getLast?_cons_cons]
        rw [ht] at ih2
        exact ih2

/-- Unfolding `splitWords` when the word-gap token is not at the head. -/
theorem splitWords_cons (c : Char) (rest : List Char)
    (h : ¬(c = ' ' ∧ rest.take 2 = [' ', ' '])) :
    splitWords (c :: rest) = consHead c (splitWords rest) := by
  rw [splitWords, if_neg h]

/-- A list that starts with a space after a space has a double space. -/
theorem noDouble_cons_space (m : List Char) (h : noDouble (' ' :: m) = true) :
    m.head? ≠ some ' ' := by
  simp only [noDouble, Bool.and_eq_true] at h
  intro hh
  rw [hh] at h
  simp at h

/-- If the first two elements are spaces, the head is a space. -/
theorem take2_head (m : List Char) (h : m.take 2 = [' ', ' ']) :
    m.head? = some ' ' := by
  cases m with
  | nil => simp at h
  | cons d m2 =>
    simp only [List.take_succ_cons, List.cons.injEq] at h
    simp [h.1]

/-- A double-space-free string contains no word-gap token and is a single
word for the word splitter. -/
theorem splitWords_single : ∀ (m : List Char), noDouble m = true →
    splitWords m = [m]
  | [], _ => by simp [splitWords]
  | c :: m, hnd => by
    have hnd2 : noDouble m = true := by
      simp only [noDouble, Bool.and_eq_true] at hnd
      exact hnd.2
    have hcond : ¬(c = ' ' ∧ m.take 2 = [' ', ' ']) := by
      rintro ⟨rfl, htake⟩
      exact noDouble_cons_space m hnd (take2_head m htake)
    rw [splitWords_cons c m hcond, splitWords_single m hnd2]
    rfl

/-- Peeling one word and one word-gap token off the word splitter, for a word
with no double space that does not end in a space. -/
theorem splitWords_append_gap : ∀ (m s : List Char), noDouble m = true →
    m.getLast? ≠ some ' ' →
    splitWords (m ++ ' ' :: ' ' :: ' ' :: s) = m :: splitWords s
  | [], s, _, _ => by
    rw [List.nil_append, splitWords]
    simp
  | c :: m, s, hnd, hlast => by
    have hnd2 : noDouble m = true := by
      simp only [noDouble, Bool.and_eq_true] at hnd
      exact hnd.2
    have hcond : ¬(c = ' ' ∧ (m ++ ' ' :: ' ' :: ' ' :: s).take 2 = [' ', ' ']) := by
      rintro ⟨rfl, htake⟩
      cases m with
      | nil => exact hlast (by simp)
      | cons d m2 =>
        have hd : d = ' ' := by
          have := take2_head _ htake
          simpa using this
        exact noDouble_cons_space (d :: m2) hnd (by simp [hd])
    rw [List.cons_append, splitWords_cons c _ hcond]
    cases m with
    | nil =>
      have hgap : splitWords (' ' :: ' ' :: ' ' :: s) = [] :: splitWords s := by
        rw [splitWords]
        simp
      rw [List.nil_append, hgap]
      rfl
    | cons d m2 =>
      have hlast2 : (d :: m2).getLast? ≠ some ' ' := by
        rw [List.getLast?_cons_cons] at hlast
        exact hlast
      rw [splitWords_append_gap (d :: m2) s hnd2 hlast2]
      rfl

/-- Splitting on the word-gap token is a left inverse of joining words that
have no double space and do not end in a space. -/
theorem splitWords_interc : ∀ (ms : List (List Char)), ms ≠ [] →
    (∀ m ∈ ms, noDouble m = true ∧ m.getLast? ≠ some ' ') →
    splitWords (interc [' ', ' ', ' '] ms) = ms
  | [], hne, _ => absurd rfl hne
  | [m], _, h => by
    simpa [interc] using splitWords_single m (h m (by simp)).1
  | m :: x :: ms2, _, h => by
    have he : interc [' ', ' ', ' '] (m :: x :: ms2) =
        m ++ ' ' :: ' ' :: ' ' :: interc [' ', ' ', ' '] (x :: ms2) := by
      simp [interc]
    obtain ⟨h1, h2⟩ := h m (by simp)
    rw [he, splitWords_append_gap m _ h1 h2,
      splitWords_interc (x :: ms2) (by simp)
        (fun y hy => h y (List.mem_cons_of_mem m hy))]

/-- Filtering out empty words is the identity on a list of non-empty words. -/
theorem filter_nonempty : ∀ (ws : List (List Char)), (∀ w ∈ ws, w ≠ []) →
    ws.filter (fun w => !w.isEmpty) = ws
  | [], _ => rfl
  | w :: ws, h => by
    cases w with
    | nil => exact absurd rfl (h [] (by simp))
    | cons c w2 =>
      simp only [List.filter_cons, List.isEmpty_cons, Bool.not_false, if_pos]
      rw [filter_nonempty ws (fun y hy => h y (List.mem_cons_of_mem _ hy))]

/-- On an all-supported word the tolerant `filterMap` is just a `map`. -/
theorem filterMap_lookupChar : ∀ (w : List Char),
    (∀ c ∈ w, (lookupChar c).isSome) →
    w.filterMap lookupChar = w.map codeOf
  | [], _ => rfl
  | c :: w, h => by
    obtain ⟨m, hm⟩ := Option.isSome_iff_exists.1 (h c (by simp))
    simp [List.filterMap_cons, hm, codeOf,
      filterMap_lookupChar w (fun d hd => h d (List.mem_cons_of_mem c hd))]

/-- The Codes of an all-supported word are non-empty and space-free. -/
theorem codes_props (w : List Char) (h : ∀ c ∈ w, (lookupChar c).isSome) :
    ∀ x ∈ w.map codeOf, x ≠ [] ∧ ' ' ∉ x := by
  intro x hx
  obtain ⟨c, hc, rfl⟩ := List.mem_map.1 hx
  obtain ⟨m, hm⟩ := Option.isSome_iff_exists.1 (h c hc)
  have he : codeOf c = m := by simp [codeOf, hm]
  rw [he]
  exact lookupChar_code_props c m hm

/-- On an all-supported word, `encodeWord` joins the per-character Codes. -/
theorem encodeWord_eq (w : List Char) (h : ∀ c ∈ w, (lookupChar c).isSome) :
    encodeWord w = interc [' '] (w.map codeOf) := by
  rw [encodeWord, filterMap_lookupChar w h]

/-- An encoded all-supported non-empty word has no double space and does not
end in a space. -/
theorem encodeWord_props (w : List Char) (hne : w ≠ [])
    (h : ∀ c ∈ w, (lookupChar c).isSome) :
    noDouble (encodeWord w) = true ∧ (encodeWord w).getLast? ≠ some ' ' := by
  rw [encodeWord_eq w h]
  exact noDouble_interc (w.map codeOf) (codes_props w h)

/-- Reverse-mapping the Codes of an all-supported word recovers the word,
case-normalized to upper case. -/
theorem filterMap_lookupCode_map : ∀ (w : List Char),
    (∀ c ∈ w, (lookupChar c).isSome) →
    (w.map codeOf).filterMap lookupCode = w.map Char.toUpper
  | [], _ => rfl
  | c :: w, h => by
    obtain ⟨m, hm⟩ := Option.isSome_iff_exists.1 (h c (by simp))
    have he : codeOf c = m := by simp [codeOf, hm]
    have hrt := lookup_roundtrip c m hm
    simp [List.filterMap_cons, he, hrt,
      filterMap_lookupCode_map w (fun d hd => h d (List.mem_cons_of_mem c hd))]

/-- Decoding an encoded all-supported non-empty word recovers the word in
upper case. -/
theorem decode_word (w : List Char) (hne : w ≠ [])
    (h : ∀ c ∈ w, (lookupChar c).isSome) :
    (splitOnSpace (encodeWord w)).filterMap lookupCode = w.map Char.toUpper := by
  rw [encodeWord_eq w h,
    splitOnSpace_interc (w.map codeOf) (by simpa using hne)
      (fun t ht => (codes_props w h t ht).2),
    filterMap_lookupCode_map w h]

/-- Decoding the empty morse string yields the empty text. -/
theorem decodeL_nil : decodeL [] = [] := by
  have h1 : splitWords [] = [[]] := by simp [splitWords]
  have h2 : lookupCode [] = none := by decide
  simp [decodeL, h1, splitOnSpace, h2, interc]

/-- C2: for every text that is a single-space-separated sequence of non-empty
words of alphabet-supported characters, decoding the encoding returns the
case-normalized (upper-cased) text. -/
theorem decode_encode_roundtrip (ws : List (List Char)) (hne : ws ≠ [])
    (hw : ∀ w ∈ ws, w ≠ [])
    (hs : ∀ w ∈ ws, ∀ c ∈ w, (lookupChar c).isSome) :
    decodeL (encodeL (interc [' '] ws)) =
      interc [' '] (ws.map (List.map Char.toUpper)) := by
  have hsp : ∀ w ∈ ws, ' ' ∉ w := by
    intro w hmem hspc
    exact supported_ne_space ' ' (hs w hmem ' ' hspc) rfl
  have h1 : encodeL (interc [' '] ws) =
      interc [' ', ' ', ' '] (ws.map encodeWord) := by
    rw [encodeL, splitOnSpace_interc ws hne hsp, filter_nonempty ws hw]
  have h2 : splitWords (interc [' ', ' ', ' '] (ws.map encodeWord)) =
      ws.map encodeWord := by
    apply splitWords_interc
    · simpa using hne
    · intro m hm
      obtain ⟨w, hwmem, rfl⟩ := List.mem_map.1 hm
      exact encodeWord_props w (hw w hwmem) (hs w hwmem)
  rw [h1, decodeL, h2, List.map_map]
  congr 1
  apply List.map_congr_left
  intro w hwmem
  exact decode_word w (hw w hwmem) (hs w hwmem)

/-- Witness for C2 on the text "SOS". -/
theorem decode_encode_roundtrip_witness :
    decodeL (encodeL (interc [' '] [['S', 'O', 'S']])) =
      interc [' '] ([['S', 'O', 'S']].map (List.map Char.toUpper)) :=
  decode_encode_roundtrip [['S', 'O', 'S']] (by decide) (by decide) (by decide)

/-- C7: encode and decode are total functions on strings: they are defined
for every input by construction, they map the empty string to the empty
string, and encode drops unsupported characters (such as the tilde) silently
instead of failing. -/
theorem codec_total_empty :
    textToMorse "" = "" ∧ morseToText "" = "" ∧ textToMorse "~" = "" := by
  refine ⟨rfl, ?_, rfl⟩
  show String.mk (decodeL []) = ""
  rw [decodeL_nil]

/-- Decoding a single-space-separated token list reduces to the tolerant
reverse lookup of each token. -/
theorem decodeL_tokens (ts : List (List Char)) (hne : ts ≠ [])
    (hts : ∀ t ∈ ts, t ≠ [] ∧ ' ' ∉ t) :
    decodeL (interc [' '] ts) = ts.filterMap lookupCode := by
  obtain ⟨hnd, _⟩ := noDouble_interc ts hts
  have h1 : splitWords (interc [' '] ts) = [interc [' '] ts] :=
    splitWords_single _ hnd
  have h2 : splitOnSpace (interc [' '] ts) = ts :=
    splitOnSpace_interc ts hne (fun t ht => (hts t ht).2)
  rw [decodeL, h1]
  simp [h2, interc]

/-- C8: decode skips a token with no match in the Alphabet Table and
continues: removing an unknown token from a decode input does not change the
decoded text, so every valid token elsewhere is still decoded. -/
theorem decodeL_skips_unknown (pre post : List (List Char)) (u0 : List Char)
    (htok : ∀ t ∈ pre ++ u0 :: post, t ≠ [] ∧ ' ' ∉ t)
    (hunk : lookupCode u0 = none) :
    decodeL (interc [' '] (pre ++ u0 :: post)) =
      decodeL (interc [' '] (pre ++ post)) := by
  have htok2 : ∀ t ∈ pre ++ post, t ≠ [] ∧ ' ' ∉ t := by
    intro t ht
    rcases List.mem_append.1 ht with h | h
    · exact htok t (List.mem_append_left _ h)
    · exact htok t (List.mem_append_right _ (List.mem_cons_of_mem u0 h))
  have hfm : (pre ++ u0 :: post).filterMap lookupCode =
      (pre ++ post).filterMap lookupCode := by
    simp [List.filterMap_append, List.filterMap_cons, hunk]
  rw [decodeL_tokens (pre ++ u0 :: post) (by simp) htok, hfm]
  rcases hpp : pre ++ post with _ | ⟨q, qs⟩
  · simp [interc, decodeL_nil]
  · rw [decodeL_tokens (q :: qs) (by simp) (hpp ▸ htok2)]

/-- Witness for C8: the unknown seven-dot token between the Codes of A and B
is skipped; both inputs decode to the same text. -/
theorem decodeL_skips_unknown_witness :
    decodeL (interc [' ']
        ([['.', '-']] ++ ['.', '.', '.', '.', '.', '.', '.'] :: [['-', '.', '.', '.']])) =
      decodeL (interc [' '] ([['.', '-']] ++ [['-', '.', '.', '.']])) :=
  decodeL_skips_unknown [['.', '-']] [['-', '.', '.', '.']]
    ['.', '.', '.', '.', '.', '.', '.'] (by decide) (by decide)
